import Mathlib

/-!
Shallow embedding of the Chzzk-Rekoda recorder (src/chzzk_record.py and
src/plugin/chzzk.py) for checking the specification's claims.

Python strings are modelled as lists of characters (one list element per
Python character); bytes are modelled as lists of naturals.  Percent and
UTF-8 codecs are modelled at the single-byte level, which coincides with
CPython on ASCII data and on truncations of valid UTF-8.
-/

namespace ChzzkRekoda

/-- A Python string: a list of characters. -/
abbrev PyStr := List Char

/-- Convert a Lean string literal into the model's string type. -/
def pstr (s : String) : PyStr := s.toList

/-! ## parse_time (src/chzzk_record.py lines 419-439)

Mirrors the compiled regex pattern (\d+):(\d+):(\d+)\.(\d+) applied with
re.match (anchored at the start, trailing characters allowed; each \d+ is
a maximal nonempty run of ASCII decimal digits, which is exact here since
digits never overlap with the literal separators). -/

/-- Numeric value of a nonempty ASCII digit string, as Python int() computes it. -/
def digitsToNat (ds : PyStr) : Nat :=
  ds.foldl (fun a c => a * 10 + (c.toNat - 48)) 0

/-- Split a leading maximal run of decimal digits off a string. -/
def spanDigits (l : PyStr) : PyStr × PyStr :=
  (l.takeWhile Char.isDigit, l.dropWhile Char.isDigit)

/-- time_pattern.match: groups of (\d+):(\d+):(\d+)\.(\d+) anchored at the
start of the string, with arbitrary trailing characters allowed. -/
def timePatternMatch (l : PyStr) : Option (Nat × Nat × Nat × Nat) :=
  let (d1, r1) := spanDigits l
  if d1 = [] then none else
  match r1 with
  | ':' :: r2 =>
    let (d2, r3) := spanDigits r2
    if d2 = [] then none else
    match r3 with
    | ':' :: r4 =>
      let (d3, r5) := spanDigits r4
      if d3 = [] then none else
      match r5 with
      | '.' :: r6 =>
        let (d4, _) := spanDigits r6
        if d4 = [] then none else
        some (digitsToNat d1, digitsToNat d2, digitsToNat d3, digitsToNat d4)
      | _ => none
    | _ => none
  | _ => none

/-- len(str(n)) for a Python non-negative int n: the number of decimal digits. -/
def decimalLen (n : Nat) : Nat := (Nat.repr n).length

/-- parse_time: seconds represented by an ffmpeg time string; 0 when the
pattern does not match.  Exact rational arithmetic stands in for Python
floats (the claims only involve exactly representable values). -/
def parse_time (s : PyStr) : ℚ :=
  match timePatternMatch s with
  | none => 0
  | some (h, m, sec, frac) =>
    (h : ℚ) * 3600 + (m : ℚ) * 60 + (sec : ℚ) + (frac : ℚ) / 10 ^ decimalLen frac

/-! ## Progress-cycle bitrate computation (src/chzzk_record.py lines 445-538)

read_stream accumulates key=value lines into a summary dict and, on a
line whose key is "progress", computes the cycle's bitrate from the
accumulated total_size and out_time values. -/

/-- Python str.strip() restricted to ASCII whitespace. -/
def pyStrip (s : PyStr) : PyStr :=
  let ws : Char → Bool := fun c => c = ' ' ∨ c = '\t' ∨ c = '\n' ∨ c = '\r'
  (s.dropWhile ws).reverse.dropWhile ws |>.reverse

/-- Split a string at the first occurrence of a separator character, as
Python's str.split(sep, 1); none when the separator does not occur. -/
def splitFirst (sep : Char) : PyStr → Option (PyStr × PyStr)
  | [] => none
  | c :: rest =>
    if c = sep then some ([], rest)
    else
      match splitFirst sep rest with
      | none => none
      | some (a, b) => some (c :: a, b)

/-- int(s) for the total_size field, with the surrounding
try/except ValueError that falls back to 0: an optional sign followed by a
nonempty digit run parses, anything else yields 0. -/
def pyIntOrZero (s : PyStr) : Int :=
  let t := pyStrip s
  match t with
  | '-' :: ds => if ds ≠ [] ∧ ds.all Char.isDigit then -(digitsToNat ds : Int) else 0
  | '+' :: ds => if ds ≠ [] ∧ ds.all Char.isDigit then (digitsToNat ds : Int) else 0
  | ds => if ds ≠ [] ∧ ds.all Char.isDigit then (digitsToNat ds : Int) else 0

/-- Result of one completed progress cycle: the computed bitrate in bits
per second, or none for the "N/A" marker. -/
structure CycleResult where
  bitrateBitsPerSec : Option ℚ
  deriving Repr, DecidableEq

/-- The bitrate computation of read_stream (lines 495-501): guard on a
positive elapsed time, otherwise the "N/A" marker. -/
def computeBitrate (totalSize : Int) (outTimeSeconds : ℚ) : Option ℚ :=
  if 0 < outTimeSeconds then some ((totalSize : ℚ) * 8 / outTimeSeconds) else none

/-- Look up a key in the summary association list (a Python dict whose
keys are unique; insertion keeps the first position). -/
def assocLookup (m : List (PyStr × PyStr)) (k : PyStr) : Option PyStr :=
  match m.find? (fun p => p.1 = k) with
  | some p => some p.2
  | none => none

/-- dict assignment d[k] = v: replace in place when the key exists,
append otherwise. -/
def assocSet (m : List (PyStr × PyStr)) (k v : PyStr) : List (PyStr × PyStr) :=
  if m.any (fun p => p.1 = k) then m.map (fun p => if p.1 = k then (k, v) else p)
  else m ++ [(k, v)]

/-- Process one line of the remuxer's progress stream against the current
summary, returning the new summary and the cycle result when the line
completes a cycle (key "progress"); mirrors lines 475-535. -/
def processLine (summary : List (PyStr × PyStr)) (line : PyStr) :
    List (PyStr × PyStr) × Option CycleResult :=
  match splitFirst '=' line with
  | none => (summary, none)
  | some (k, v) =>
    let key := pyStrip k
    let summary2 := assocSet summary key (pyStrip v)
    if key = pstr "progress" then
      let totalSizeStr := (assocLookup summary2 (pstr "total_size")).getD (pstr "0")
      let outTimeStr := (assocLookup summary2 (pstr "out_time")).getD (pstr "0")
      let totalSize := pyIntOrZero totalSizeStr
      let outSeconds := parse_time outTimeStr
      ([], some ⟨computeBitrate totalSize outSeconds⟩)
    else
      (summary2, none)

/-- Feed a list of lines through the progress parser, collecting the
completed cycles in order. -/
def runProgressLines (lines : List PyStr) : List CycleResult :=
  (lines.foldl
    (fun (st : List (PyStr × PyStr) × List CycleResult) line =>
      let (summary2, res) := processLine st.1 line
      (summary2, st.2 ++ res.toList))
    ([], [])).2

/-! ## HLS token refresh decision (src/plugin/chzzk.py lines 73, 172-181) -/

/-- The constant _REFRESH_BEFORE = 3 * 60 * 60. -/
def REFRESH_BEFORE : Int := 3 * 60 * 60

/-- The method _should_refresh: the stored expiry is not None and the current time
has reached expiry - _REFRESH_BEFORE. -/
def shouldRefresh (expire : Option Int) (now : Int) : Bool :=
  match expire with
  | none => false
  | some e => decide (e - REFRESH_BEFORE ≤ now)

/-! ## urllib.parse primitives used by ChzzkHLSStream

parse_qs, urlencode and friends, modelled at the character level; percent
codecs treat one character as one byte, which agrees with CPython on
ASCII data (the only data the claims involve). -/

/-- Python str.split(sep): splits on every occurrence, keeping empty
chunks; the empty string yields one empty chunk. -/
def pySplitChar (sep : Char) : PyStr → List PyStr
  | [] => [[]]
  | c :: rest =>
    match pySplitChar sep rest with
    | [] => [[]]
    | h :: t => if c = sep then [] :: h :: t else (c :: h) :: t

/-- Hexadecimal digit test (ASCII). -/
def isHexChar (c : Char) : Bool :=
  c.isDigit ∨ ('a' ≤ c ∧ c ≤ 'f') ∨ ('A' ≤ c ∧ c ≤ 'F')

/-- Value of a hexadecimal digit. -/
def hexVal (c : Char) : Nat :=
  if c.isDigit then c.toNat - 48
  else if 'a' ≤ c ∧ c ≤ 'f' then c.toNat - 87
  else c.toNat - 55

/-- urllib.parse.unquote at the single-byte level: decode %XX escapes,
leave malformed escapes as-is. -/
def unquotePercent : PyStr → PyStr
  | [] => []
  | '%' :: h1 :: h2 :: rest =>
    if isHexChar h1 ∧ isHexChar h2 then
      Char.ofNat (16 * hexVal h1 + hexVal h2) :: unquotePercent rest
    else '%' :: unquotePercent (h1 :: h2 :: rest)
  | c :: rest => c :: unquotePercent rest

/-- unquote_plus: replace '+' with a space, then percent-decode. -/
def unquotePlus (s : PyStr) : PyStr :=
  unquotePercent (s.map fun c => if c = '+' then ' ' else c)

/-- The characters urllib never quotes: ASCII alphanumerics and _.-~ . -/
def isAlwaysSafe (c : Char) : Bool :=
  c.isAlpha ∨ c.isDigit ∨ c = '_' ∨ c = '.' ∨ c = '-' ∨ c = '~'

/-- Uppercase hexadecimal digit of a value below 16. -/
def hexDigitUpper (n : Nat) : Char :=
  if n < 10 then Char.ofNat (48 + n) else Char.ofNat (55 + n)

/-- quote_plus on one character (single-byte model): safe characters pass
through, space becomes '+', the rest become %XX. -/
def quotePlusChar (c : Char) : PyStr :=
  if isAlwaysSafe c then [c]
  else if c = ' ' then ['+']
  else ['%', hexDigitUpper (c.toNat / 16), hexDigitUpper (c.toNat % 16)]

/-- quote_plus on a string. -/
def quotePlus (s : PyStr) : PyStr :=
  s.foldr (fun c acc => quotePlusChar c ++ acc) []

/-- One field of parse_qsl with the source's default arguments
(keep_blank_values False, strict_parsing False): skip an empty chunk,
split at the first '=', drop a field without '=' or with an empty value,
and form-decode name and value. -/
def parseQslField (field : PyStr) : Option (PyStr × PyStr) :=
  if field = [] then none
  else
    match splitFirst '=' field with
    | none => none
    | some (n, v) =>
      if v = [] then none else some (unquotePlus n, unquotePlus v)

/-- parse_qsl with the source's default arguments: split on '&' and keep
the fields that parse. -/
def parseQsl (qs : PyStr) : List (PyStr × PyStr) :=
  (pySplitChar '&' qs).filterMap parseQslField

/-- Group one parsed pair into the parse_qs dictionary: append the value
to an existing key's list, or add the key at the end. -/
def addGroup (gs : List (PyStr × List PyStr)) (k v : PyStr) :
    List (PyStr × List PyStr) :=
  if gs.any (fun g => g.1 = k) then
    gs.map (fun g => if g.1 = k then (g.1, g.2 ++ [v]) else g)
  else gs ++ [(k, [v])]

/-- parse_qs: parsed pairs grouped by key, keys in first-appearance
order, values in appearance order. -/
def parseQs (qs : PyStr) : List (PyStr × List PyStr) :=
  (parseQsl qs).foldl (fun gs p => addGroup gs p.1 p.2) []

/-- Join rendered fields with the '&' separator. -/
def joinAmp : List PyStr → PyStr
  | [] => []
  | [x] => x
  | x :: xs => x ++ '&' :: joinAmp xs

/-- urlencode(d, doseq=True): one k=v field per value, keys and values
form-encoded, fields joined by '&'. -/
def urlencodeGroups (gs : List (PyStr × List PyStr)) : PyStr :=
  joinAmp ((gs.map fun g => g.2.map fun v =>
    quotePlus g.1 ++ '=' :: quotePlus v).flatten)

/-- The component split urlparse produces; _replace_token reassembles the
result from the old URL's components with only the query replaced, so the
model takes the already-split URL as input. -/
structure ParsedUrl where
  scheme : PyStr
  netloc : PyStr
  path : PyStr
  params : PyStr
  query : PyStr
  fragment : PyStr
  deriving Repr, DecidableEq

/-- dict.get on a parse_qs dictionary. -/
def lookupGroup (gs : List (PyStr × List PyStr)) (k : PyStr) :
    Option (List PyStr) :=
  (gs.find? (fun g => g.1 = k)).map (·.2)

/-- dict assignment d[k] = vs: replace the value in place when the key
exists, append at the end otherwise. -/
def dictSetList (gs : List (PyStr × List PyStr)) (k : PyStr)
    (vs : List PyStr) : List (PyStr × List PyStr) :=
  if gs.any (fun g => g.1 = k) then
    gs.map (fun g => if g.1 = k then (k, vs) else g)
  else gs ++ [(k, vs)]

/-- ChzzkHLSStream._replace_token (src/plugin/chzzk.py lines 140-154):
re-parse both query strings, copy the hdnts value from the new one when
present, re-encode, and reassemble on the old URL's other components. -/
def replaceToken (old new : ParsedUrl) : ParsedUrl :=
  let qsOld := parseQs old.query
  let qsNew := parseQs new.query
  let qsOld2 :=
    match lookupGroup qsNew (pstr "hdnts") with
    | some vs => dictSetList qsOld (pstr "hdnts") vs
    | none => qsOld
  { old with query := urlencodeGroups qsOld2 }

/-- Python str.isdigit restricted to ASCII (nonempty, all decimal digits). -/
def pyIsdigit (s : PyStr) : Bool := s ≠ [] ∧ s.all Char.isDigit

/-- ChzzkHLSStream._get_expire_time (src/plugin/chzzk.py lines 156-170):
the first value of the exp query parameter when it is all digits. -/
def getExpireTime (query : PyStr) : Option Int :=
  match lookupGroup (parseQs query) (pstr "exp") with
  | some (v :: _) => if pyIsdigit v then some (digitsToNat v : Int) else none
  | _ => none

/-! ### Canonical query strings, for the frame property of _replace_token -/

/-- Render one query field as name=value. -/
def renderField (p : PyStr × PyStr) : PyStr := p.1 ++ '=' :: p.2

/-- Render a query string from a list of fields, joined by '&'. -/
def renderQuery (fields : List (PyStr × PyStr)) : PyStr :=
  joinAmp (fields.map renderField)

/-- Well-formed canonical field list: nonempty names and values made of
characters urlencode passes through unchanged. -/
def CanonicalFields (fields : List (PyStr × PyStr)) : Prop :=
  ∀ p ∈ fields, p.1 ≠ [] ∧ p.2 ≠ [] ∧
    p.1.all isAlwaysSafe = true ∧ p.2.all isAlwaysSafe = true

/-- Canonical form is a decidable property. -/
instance (fields : List (PyStr × PyStr)) : Decidable (CanonicalFields fields) := by
  unfold CanonicalFields
  infer_instance

/-- Modelled from the spec: the fields of a query string other than the
access-token (hdnts) parameter, in order — the spec asserts these are
byte-identical before and after a token refresh. -/
def queryFieldsExceptToken (q : PyStr) : List PyStr :=
  (pySplitChar '&' q).filter fun f =>
    (match splitFirst '=' f with
      | some (n, _) => n
      | none => f) ≠ pstr "hdnts"

/-! ## ChzzkHLSStreamWorker._fetch_playlist (src/plugin/chzzk.py lines 36-55)

The worker loops over two attempts; each attempt either returns the
playlist, or raises a StreamError.  A StreamError carrying a response
with status >= 400 triggers stream.refresh_playlist() and the next
attempt; any other StreamError is re-raised at once.  Falling out of the
loop raises the final "failed after retry" StreamError.  The environment
is modelled by an oracle giving each attempt's outcome. -/

/-- Outcome of one underlying playlist fetch: the playlist content, or a
StreamError whose response carries a status code (none models
err.response is None). -/
inductive FetchRes where
  | ok (v : Nat)
  | err (status : Option Nat)
  deriving Repr, DecidableEq

/-- How the call to _fetch_playlist ended. -/
inductive FetchErr where
  | raised (status : Option Nat)
  | retriesExhausted
  deriving Repr, DecidableEq

/-- Trace of one call to _fetch_playlist: the result, the number of
refresh_playlist() calls, and the number of fetch attempts made. -/
structure FetchOut where
  result : Except FetchErr Nat
  refreshes : Nat
  fetches : Nat
  deriving Repr

/-- The for-loop of _fetch_playlist, with the remaining attempt budget as
fuel (the source fixes it at 2). -/
def fetchLoop (oracle : Nat → FetchRes) :
    Nat → Nat → Nat → Nat → FetchOut
  | 0, _, refreshes, fetches => ⟨.error .retriesExhausted, refreshes, fetches⟩
  | remaining + 1, attempt, refreshes, fetches =>
    match oracle attempt with
    | .ok v => ⟨.ok v, refreshes, fetches + 1⟩
    | .err none => ⟨.error (.raised none), refreshes, fetches + 1⟩
    | .err (some c) =>
      if 400 ≤ c then
        fetchLoop oracle remaining (attempt + 1) (refreshes + 1) (fetches + 1)
      else ⟨.error (.raised (some c)), refreshes, fetches + 1⟩

/-- The method _fetch_playlist: two attempts, starting with no refreshes or fetches. -/
def fetchPlaylist (oracle : Nat → FetchRes) : FetchOut :=
  fetchLoop oracle 2 0 0 0

/-! ## Filename sanitizing and shortening (src/chzzk_record.py lines 181-186, 364-397)

SPECIAL_CHARS_REMOVER removes Windows-reserved characters from the live
title; shorten_filename truncates an over-long filename at the UTF-8 byte
level and appends a hash before the extension.  sha256(...).hexdigest()[:8]
is modelled as a parameter, an arbitrary function producing 8 ASCII
characters from the input bytes. -/

/-- The characters of the class of SPECIAL_CHARS_REMOVER. -/
def specialChars : PyStr := pstr "\\/:*?\"<>|"

/-- SPECIAL_CHARS_REMOVER.sub("", s): drop every reserved character. -/
def removeSpecialChars (s : PyStr) : PyStr :=
  s.filter fun c => !(specialChars.any (fun d => d = c))

/-- UTF-8 encoding of one code point, as a byte list. -/
def utf8EncodeChar (n : Nat) : List Nat :=
  if n < 0x80 then [n]
  else if n < 0x800 then [0xC0 + n / 64, 0x80 + n % 64]
  else if n < 0x10000 then [0xE0 + n / 4096, 0x80 + n / 64 % 64, 0x80 + n % 64]
  else [0xF0 + n / 262144, 0x80 + n / 4096 % 64, 0x80 + n / 64 % 64, 0x80 + n % 64]

/-- str.encode("utf-8"). -/
def utf8Encode (s : PyStr) : List Nat :=
  s.foldr (fun c acc => utf8EncodeChar c.toNat ++ acc) []

/-- UTF-8 continuation byte test. -/
def isContByte (b : Nat) : Bool := 0x80 ≤ b ∧ b < 0xC0

/-- Valid second byte of a three-byte sequence (excludes overlong forms
and surrogates, as CPython's strict decoder does). -/
def validSecond3 (b1 b2 : Nat) : Bool :=
  if b1 = 0xE0 then 0xA0 ≤ b2 ∧ b2 ≤ 0xBF
  else if b1 = 0xED then 0x80 ≤ b2 ∧ b2 ≤ 0x9F
  else isContByte b2

/-- Valid second byte of a four-byte sequence (excludes overlong forms
and code points beyond U+10FFFF). -/
def validSecond4 (b1 b2 : Nat) : Bool :=
  if b1 = 0xF0 then 0x90 ≤ b2 ∧ b2 ≤ 0xBF
  else if b1 = 0xF4 then 0x80 ≤ b2 ∧ b2 ≤ 0x8F
  else isContByte b2

/-- bytes.decode("utf-8", "ignore"), with explicit fuel (any fuel of at
least the list length computes the full decode): well-formed sequences
decode, bytes that do not start a valid sequence are skipped.  This
agrees with CPython on every truncation of valid UTF-8, the only inputs
the source feeds it. -/
def utf8DecodeLoop : Nat → List Nat → PyStr
  | 0, _ => []
  | _, [] => []
  | fuel + 1, b1 :: t1 =>
    if b1 < 0x80 then Char.ofNat b1 :: utf8DecodeLoop fuel t1
    else if 0xC2 ≤ b1 ∧ b1 ≤ 0xDF then
      match t1 with
      | b2 :: t2 =>
        if isContByte b2 then
          Char.ofNat ((b1 - 0xC0) * 64 + (b2 - 0x80)) :: utf8DecodeLoop fuel t2
        else utf8DecodeLoop fuel t1
      | [] => utf8DecodeLoop fuel t1
    else if 0xE0 ≤ b1 ∧ b1 ≤ 0xEF then
      match t1 with
      | b2 :: b3 :: t3 =>
        if validSecond3 b1 b2 ∧ isContByte b3 then
          Char.ofNat ((b1 - 0xE0) * 4096 + (b2 - 0x80) * 64 + (b3 - 0x80))
            :: utf8DecodeLoop fuel t3
        else utf8DecodeLoop fuel t1
      | _ => utf8DecodeLoop fuel t1
    else if 0xF0 ≤ b1 ∧ b1 ≤ 0xF4 then
      match t1 with
      | b2 :: b3 :: b4 :: t4 =>
        if validSecond4 b1 b2 ∧ isContByte b3 ∧ isContByte b4 then
          Char.ofNat
              ((b1 - 0xF0) * 262144 + (b2 - 0x80) * 4096 + (b3 - 0x80) * 64 + (b4 - 0x80))
            :: utf8DecodeLoop fuel t4
        else utf8DecodeLoop fuel t1
      | _ => utf8DecodeLoop fuel t1
    else utf8DecodeLoop fuel t1

/-- bytes.decode("utf-8", "ignore"). -/
def utf8DecodeIgnore (bs : List Nat) : PyStr := utf8DecodeLoop bs.length bs

/-- Python bytes slicing bs[:n] with a possibly negative bound (a
negative bound counts from the end, clamped at zero). -/
def pyBytesTake (bs : List Nat) (n : Int) : List Nat :=
  if 0 ≤ n then bs.take n.toNat
  else bs.take (bs.length - min bs.length n.natAbs)

/-- str.endswith. -/
def pyEndsWith (s suf : PyStr) : Bool :=
  suf.length ≤ s.length ∧ s.drop (s.length - suf.length) = suf

/-- rfind of a character: index of its last occurrence. -/
def rfindIdx (c : Char) (l : PyStr) : Option Nat :=
  match l.reverse.findIdx? (fun d => d = c) with
  | some i => some (l.length - 1 - i)
  | none => none

/-- os.path.splitext for a name without path separators: split at the
last dot, unless every character before it is a dot. -/
def splitext (p : PyStr) : PyStr × PyStr :=
  match rfindIdx '.' p with
  | none => (p, [])
  | some d =>
    if (p.take d).any (fun c => c ≠ '.') then (p.take d, p.drop d) else (p, [])

/-- MAX_FILENAME_BYTES. -/
def MAX_FILENAME_BYTES : Nat := 255

/-- MAX_HASH_LENGTH. -/
def MAX_HASH_LENGTH : Nat := 8

/-- The name/extension split of shorten_filename: the compound extension
".ts.part" when the name ends in it, os.path.splitext otherwise. -/
def splitPart (filename : PyStr) : PyStr × PyStr :=
  if pyEndsWith filename (pstr ".ts.part") then
    (filename.take (filename.length - 8), pstr ".ts.part")
  else splitext filename

/-- shorten_filename, parameterized by the hash function standing in for
sha256(...).hexdigest()[:MAX_HASH_LENGTH]. -/
def shorten_filename (hash8 : List Nat → PyStr) (filename : PyStr) : PyStr :=
  let parts := splitPart filename
  let name := parts.1
  let compound_ext := parts.2
  let filename_bytes := utf8Encode filename
  if MAX_FILENAME_BYTES < filename_bytes.length then
    let hash_value := hash8 filename_bytes
    let max_name_length : Int :=
      (MAX_FILENAME_BYTES : Int) - ((utf8Encode compound_ext).length + MAX_HASH_LENGTH + 1)
    let shortened_name_bytes := pyBytesTake (utf8Encode name) max_name_length
    let shortened_name := utf8DecodeIgnore shortened_name_bytes
    shortened_name ++ '_' :: hash_value ++ compound_ext
  else filename

/-! ## The record_stream lifecycle (src/chzzk_record.py lines 541-817)

A transition system over one channel's task.  Each transition is one
complete exit path of the recording episode, taken atomically:

* start — lines 631-731: kill any previous episode's processes, spawn
  the downloader and the remuxer, insert the channel's progress entry;
* normalExit — lines 738-772: the pipeline ends, both processes are
  awaited, the temporary file is renamed, the progress entry is popped;
* errorExit — an exception raised after both subprocess waits returned
  but before the pop at lines 770-772 (the rename at lines 766-767
  failing is the concrete case, the spec's "filesystem error" class),
  caught by the handler at lines 785-791, which removes nothing and
  resumes the waiting loop;
* shutdownExit — lines 744-751 kill and await both processes, then the
  finally block (lines 804-817) renames the temporary file and pops the
  progress entry;
* cancelExit — lines 782-784 break out, with the same finally block;
* endTask — the task leaves the waiting loop (shutdown or cancellation
  outside a recording episode) and runs the finally block: processes are
  killed if running and the progress entry is popped (recording_started
  is false outside an episode, so no rename happens). -/

/-- Where the channel task stands. -/
inductive RecPhase where
  | waiting
  | recording
  | finished
  deriving Repr, DecidableEq

/-- Disposition of the output file of the current episode. -/
inductive FileDisp where
  | absent
  | temp
  | final
  | deleted
  deriving Repr, DecidableEq

/-- State of one channel task: phase, presence of the channel's progress
entry, liveness of the two subprocesses, and the output file. -/
structure RecState where
  phase : RecPhase
  entry : Bool
  streamRunning : Bool
  ffmpegRunning : Bool
  file : FileDisp
  deriving Repr, DecidableEq

/-- The exit-path labels of record_stream. -/
inductive StepKind where
  | start
  | normalExit
  | errorExit
  | shutdownExit
  | cancelExit
  | endTask
  deriving Repr, DecidableEq

/-- Atomic transitions of record_stream, labelled by exit path. -/
inductive RecStep : StepKind → RecState → RecState → Prop where
  | start (e sr fr : Bool) (f : FileDisp) :
      RecStep .start ⟨.waiting, e, sr, fr, f⟩ ⟨.recording, true, true, true, .temp⟩
  | normalExit (e sr fr : Bool) :
      RecStep .normalExit ⟨.recording, e, sr, fr, .temp⟩
        ⟨.waiting, false, false, false, .final⟩
  | errorExit (e sr fr : Bool) :
      RecStep .errorExit ⟨.recording, e, sr, fr, .temp⟩
        ⟨.waiting, e, false, false, .temp⟩
  | shutdownExit (e sr fr : Bool) :
      RecStep .shutdownExit ⟨.recording, e, sr, fr, .temp⟩
        ⟨.finished, false, false, false, .final⟩
  | cancelExit (e sr fr : Bool) :
      RecStep .cancelExit ⟨.recording, e, sr, fr, .temp⟩
        ⟨.finished, false, false, false, .final⟩
  | endTask (e sr fr : Bool) (f : FileDisp) :
      RecStep .endTask ⟨.waiting, e, sr, fr, f⟩ ⟨.finished, false, false, false, f⟩

/-- The task's initial state: waiting for the channel to go live, no
progress entry, no subprocesses, no output file. -/
def recInit : RecState := ⟨.waiting, false, false, false, .absent⟩

/-- States reachable by the channel task. -/
inductive RecReachable : RecState → Prop where
  | init : RecReachable recInit
  | step {s s' : RecState} {k : StepKind} :
      RecReachable s → RecStep k s s' → RecReachable s'

/-- The recording session (the subprocess pipeline) is active. -/
def sessionActive (s : RecState) : Bool := s.streamRunning || s.ffmpegRunning

/-! ### The finally block of record_stream (lines 804-817), as a function -/

/-- A subprocess handle: whether returncode is still None. -/
structure ProcHandle where
  running : Bool
  deriving Repr, DecidableEq

/-- if p and p.returncode is None: p.kill(); await p.wait(). -/
def killAwait : Option ProcHandle → Option ProcHandle
  | none => none
  | some p => if p.running then some ⟨false⟩ else some p

/-- State the finally block operates on: the two optional process
handles, the recording_started flag, and the temporary file. -/
structure FinalizeState where
  streamProcess : Option ProcHandle
  ffmpegProcess : Option ProcHandle
  recordingStarted : Bool
  file : FileDisp
  deriving Repr, DecidableEq

/-- The finally block of record_stream, executed on every exit of the
task body: kill and await each live subprocess, then rename the
temporary file when a recording had started and the file exists. -/
def recordStreamFinally (s : FinalizeState) : FinalizeState :=
  { streamProcess := killAwait s.streamProcess
    ffmpegProcess := killAwait s.ffmpegProcess
    recordingStarted := s.recordingStarted
    file := if s.recordingStarted ∧ s.file = .temp then .final else s.file }

/-! ## One pass of manage_recording_tasks (src/chzzk_record.py lines 850-900)

The reconciliation loop's per-iteration body over the freshly loaded
channel list: cancel tasks whose channel id is no longer present, then
walk the channel list, starting tasks for active channels without one and
cancelling tasks for channels marked off.  Tasks are identified by the
token handed out at creation (a counter models task object identity), so
"never restarted" is expressible; the progress table is the list of
channel ids holding an entry. -/

/-- One desired-channel record as the loop reads it: str(channel.get("id"))
and channel.get("active", "on"). -/
structure ChanCfg where
  id : PyStr
  active : PyStr
  deriving Repr, DecidableEq

/-- Membership of a string in a list of strings. -/
def memS (k : PyStr) (l : List PyStr) : Bool := l.any (fun x => x = k)

/-- The channel ids holding a running task. -/
def taskKeys (ts : List (PyStr × Nat)) : List PyStr := ts.map Prod.fst

/-- The second loop of the pass (lines 866-900), walking the channel
list over the state (tasks, progress ids, next task token). -/
def managePhase2 :
    List ChanCfg → List (PyStr × Nat) × List PyStr × Nat →
      List (PyStr × Nat) × List PyStr × Nat
  | [], st => st
  | ch :: rest, (ts, pr, fresh) =>
    if ch.id = [] then managePhase2 rest (ts, pr, fresh)
    else if !(ts.any fun t => t.1 = ch.id) then
      if ch.active = pstr "on" then
        managePhase2 rest (ts ++ [(ch.id, fresh)], pr, fresh + 1)
      else managePhase2 rest (ts, pr, fresh)
    else
      if ch.active = pstr "off" then
        managePhase2 rest
          (ts.filter (fun t => !(t.1 = ch.id)), pr.filter (fun c => !(c = ch.id)), fresh)
      else managePhase2 rest (ts, pr, fresh)

/-- One full reconciliation pass: cancel tasks for ids absent from the
desired set (removing their progress entries, lines 855-864), then walk
the channel list (lines 866-900). -/
def managePass (channels : List ChanCfg) (ts : List (PyStr × Nat))
    (pr : List PyStr) (fresh : Nat) :
    List (PyStr × Nat) × List PyStr × Nat :=
  let currentIds := channels.map (·.id)
  let ts1 := ts.filter (fun t => memS t.1 currentIds)
  let pr1 := pr.filter (fun c => !(memS c (taskKeys ts) && !(memS c currentIds)))
  managePhase2 channels (ts1, pr1, fresh)

/-! ## Theorems -/

/-- Claim C10: parse_time is total — it returns a non-negative number for
every input (no exception: every operation of the source is total here,
int() is applied to digit runs and the divisor 10^k is positive), and any
string not matching the hours:minutes:seconds.fraction pattern, in
particular the empty string and "N/A", yields exactly 0. -/
theorem parse_time_total (s : PyStr) :
    0 ≤ parse_time s
    ∧ (timePatternMatch s = none → parse_time s = 0)
    ∧ parse_time (pstr "") = 0 ∧ parse_time (pstr "N/A") = 0 := by
  refine ⟨?_, ?_, by decide, by decide⟩
  · cases h : timePatternMatch s with
    | none => simp [parse_time, h]
    | some t =>
      obtain ⟨a, b, c, d⟩ := t
      simp only [parse_time, h]
      positivity
  · intro h
    simp [parse_time, h]

/-- Witness for parse_time_total at the concrete input "N/A". -/
theorem parse_time_total_witness :
    timePatternMatch (pstr "N/A") = none ∧ parse_time (pstr "N/A") = 0 :=
  ⟨by decide, (parse_time_total (pstr "N/A")).2.1 (by decide)⟩

/-- Claim C8: feeding the progress lines total_size=1024,
out_time=00:00:02.00, progress=continue through the progress monitor
yields one completed cycle whose bitrate is 4096 bits per second
(1024 bytes * 8 / 2 s); and whenever the elapsed output time parses to
zero the bitrate is the "not available" marker (none) instead of a
division. -/
theorem progress_cycle_bitrate :
    runProgressLines
        [pstr "total_size=1024", pstr "out_time=00:00:02.00", pstr "progress=continue"]
      = [⟨some 4096⟩]
    ∧ ∀ (totalSize : Int) (outStr : PyStr), parse_time outStr = 0 →
        computeBitrate totalSize (parse_time outStr) = none := by
  constructor
  · have hrun : runProgressLines
        [pstr "total_size=1024", pstr "out_time=00:00:02.00", pstr "progress=continue"]
        = [⟨computeBitrate 1024 (parse_time (pstr "00:00:02.00"))⟩] := rfl
    have hmatch : timePatternMatch (pstr "00:00:02.00") = some (0, 0, 2, 0) := by decide
    have htime : parse_time (pstr "00:00:02.00") = 2 := by
      simp only [parse_time, hmatch]
      norm_num [decimalLen]
    rw [hrun, htime]
    norm_num [computeBitrate]
  · intro totalSize outStr h
    rw [h]
    simp [computeBitrate]

/-- Witness for progress_cycle_bitrate at the concrete out_time "N/A". -/
theorem progress_cycle_bitrate_witness :
    parse_time (pstr "N/A") = 0
    ∧ computeBitrate 1024 (parse_time (pstr "N/A")) = none :=
  ⟨by decide, progress_cycle_bitrate.2 1024 (pstr "N/A") (by decide)⟩

/-- Claim C5 counterexample: with the expiry exactly 10800 seconds after
the current time (expire = 10800, now = 0), _should_refresh returns true,
because the comparison in the source is now >= expire - 10800 (inclusive);
the claim states it returns false at this boundary. -/
theorem shouldRefresh_true_at_exact_margin :
    shouldRefresh (some 10800) 0 = true := by decide

/-- Claim C5 (amended): _should_refresh with a stored expiry returns true
exactly when the expiry is at most 10800 seconds after the current time;
hence it returns false when the expiry is strictly more than 10800 s away,
and true when the expiry is 10800 s away or closer, including at or before
the current time. -/
theorem shouldRefresh_iff (e now : Int) :
    shouldRefresh (some e) now = true ↔ e - now ≤ 10800 := by
  simp only [shouldRefresh, REFRESH_BEFORE, decide_eq_true_eq]
  omega

/-- Claim C4 counterexample: with both fetch attempts failing with HTTP
404, _fetch_playlist calls refresh_playlist twice — once per 4xx — before
raising the final StreamError; the claim allows exactly one refresh with
no further refresh after the second 4xx. -/
theorem fetchPlaylist_two_refreshes_on_double_4xx :
    fetchPlaylist (fun _ => .err (some 404))
        = ⟨.error .retriesExhausted, 2, 2⟩
    ∧ (fetchPlaylist (fun _ => .err (some 404))).refreshes ≠ 1 := by
  exact ⟨rfl, by decide⟩

/-- Claim C4 (amended): after a first 4xx the worker refreshes once and
retries exactly once; if the retried fetch succeeds the call returns its
playlist after exactly one refresh and two fetches, while a second
consecutive 4xx triggers one more refresh (a side effect the original
claim excludes) and is then surfaced as the hard retries-exhausted
failure with no third fetch attempt. -/
theorem fetchPlaylist_retry_once (oracle : Nat → FetchRes) (c1 : Nat)
    (h1 : oracle 0 = .err (some c1)) (hc1 : 400 ≤ c1) :
    (∀ v, oracle 1 = .ok v → fetchPlaylist oracle = ⟨.ok v, 1, 2⟩)
    ∧ ∀ c2, oracle 1 = .err (some c2) → 400 ≤ c2 →
        fetchPlaylist oracle = ⟨.error .retriesExhausted, 2, 2⟩ := by
  constructor
  · intro v h2
    simp [fetchPlaylist, fetchLoop, h1, h2, if_pos hc1]
  · intro c2 h2 hc2
    simp [fetchPlaylist, fetchLoop, h1, h2, if_pos hc1, if_pos hc2]

/-- utf8Encode distributes over cons. -/
theorem utf8Encode_cons (c : Char) (s : PyStr) :
    utf8Encode (c :: s) = utf8EncodeChar c.toNat ++ utf8Encode s := rfl

/-- utf8Encode distributes over append. -/
theorem utf8Encode_append (a b : PyStr) :
    utf8Encode (a ++ b) = utf8Encode a ++ utf8Encode b := by
  induction a with
  | nil => rfl
  | cons c tl ih => simp [utf8Encode_cons, ih]

/-- One-byte encodings for code points below 128. -/
theorem utf8EncodeChar_length_one {n : Nat} (h : n < 128) :
    (utf8EncodeChar n).length = 1 := by
  simp [utf8EncodeChar, h]

/-- Encoded length is at most two bytes below 0x800. -/
theorem utf8EncodeChar_length_le_two {n : Nat} (h : n < 2048) :
    (utf8EncodeChar n).length ≤ 2 := by
  unfold utf8EncodeChar
  split_ifs <;> simp_all

/-- Encoded length is at most three bytes below 0x10000. -/
theorem utf8EncodeChar_length_le_three {n : Nat} (h : n < 65536) :
    (utf8EncodeChar n).length ≤ 3 := by
  unfold utf8EncodeChar
  split_ifs <;> simp_all

/-- Encoded length is at most four bytes. -/
theorem utf8EncodeChar_length_le_four (n : Nat) :
    (utf8EncodeChar n).length ≤ 4 := by
  unfold utf8EncodeChar
  split_ifs <;> simp

/-- Char.ofNat never increases the code point (invalid inputs collapse
to 0). -/
theorem char_toNat_ofNat_le (n : Nat) : (Char.ofNat n).toNat ≤ n := by
  unfold Char.ofNat
  split
  · exact Nat.le_of_eq rfl
  · exact Nat.zero_le n

/-- Encoded length is monotone in the code point. -/
theorem utf8EncodeChar_length_mono {m v : Nat} (h : m ≤ v) :
    (utf8EncodeChar m).length ≤ (utf8EncodeChar v).length := by
  unfold utf8EncodeChar
  split_ifs <;> simp_all <;> omega

/-- ASCII strings encode one byte per character. -/
theorem utf8Encode_length_ascii (s : PyStr) (h : ∀ c ∈ s, c.toNat < 128) :
    (utf8Encode s).length = s.length := by
  induction s with
  | nil => rfl
  | cons c tl ih =>
    rw [utf8Encode_cons, List.length_append, List.length_cons,
      utf8EncodeChar_length_one (h c (List.mem_cons_self c tl)),
      ih fun d hd => h d (List.mem_cons_of_mem c hd)]
    omega

/-- A valid second byte of a three-byte sequence is a continuation byte. -/
theorem validSecond3_bounds {b1 b2 : Nat} (h : validSecond3 b1 b2 = true) :
    0x80 ≤ b2 ∧ b2 < 0xC0 := by
  unfold validSecond3 at h
  split_ifs at h <;> simp_all [isContByte] <;> omega

/-- Re-encoding a decode never produces more bytes than were consumed:
each decoded character consumed at least as many bytes as its re-encoding
needs, and skipped bytes contribute nothing. -/
theorem utf8DecodeLoop_length_le (fuel : Nat) :
    ∀ bs : List Nat, (utf8Encode (utf8DecodeLoop fuel bs)).length ≤ bs.length := by
  induction fuel with
  | zero => intro bs; simp [utf8DecodeLoop, utf8Encode]
  | succ fuel ih =>
    intro bs
    cases bs with
    | nil => simp [utf8DecodeLoop, utf8Encode]
    | cons b1 t1 =>
      simp only [utf8DecodeLoop]
      split
      · rename_i h1
        have e1 : (utf8EncodeChar (Char.ofNat b1).toNat).length ≤ 1 :=
          le_trans (utf8EncodeChar_length_mono (char_toNat_ofNat_le b1))
            (le_of_eq (utf8EncodeChar_length_one h1))
        have e2 := ih t1
        simp only [utf8Encode_cons, List.length_append, List.length_cons]
        omega
      all_goals split
      · -- two-byte lead
        split
        · rename_i h1 h2 b2 t2
          split
          · rename_i hc
            simp only [isContByte, decide_eq_true_eq] at hc
            have hb : (b1 - 0xC0) * 64 + (b2 - 0x80) < 2048 := by omega
            have e1 : (utf8EncodeChar
                (Char.ofNat ((b1 - 0xC0) * 64 + (b2 - 0x80))).toNat).length ≤ 2 :=
              le_trans (utf8EncodeChar_length_mono (char_toNat_ofNat_le _))
                (utf8EncodeChar_length_le_two hb)
            have e2 := ih t2
            simp only [utf8Encode_cons, List.length_append, List.length_cons]
            omega
          · have e2 := ih (b2 :: t2)
            simp only [List.length_cons] at *
            omega
        · have e2 := ih ([] : List Nat)
          simp only [List.length_cons, List.length_nil] at *
          omega
      all_goals split
      · -- three-byte lead
        split
        · rename_i h1 h2 h3 b2 b3 t3
          split
          · rename_i hc
            obtain ⟨hc2, hc3⟩ := hc
            have hb2 := validSecond3_bounds hc2
            simp only [isContByte, decide_eq_true_eq] at hc3
            have hb : (b1 - 0xE0) * 4096 + (b2 - 0x80) * 64 + (b3 - 0x80) < 65536 := by
              omega
            have e1 : (utf8EncodeChar (Char.ofNat
                ((b1 - 0xE0) * 4096 + (b2 - 0x80) * 64 + (b3 - 0x80))).toNat).length ≤ 3 :=
              le_trans (utf8EncodeChar_length_mono (char_toNat_ofNat_le _))
                (utf8EncodeChar_length_le_three hb)
            have e2 := ih t3
            simp only [utf8Encode_cons, List.length_append, List.length_cons]
            omega
          · have e2 := ih (b2 :: b3 :: t3)
            simp only [List.length_cons] at *
            omega
        · rename_i h1 h2 h3 hx
          have e2 := ih t1
          simp only [List.length_cons]
          omega
      all_goals split
      · -- four-byte lead
        split
        · rename_i h1 h2 h3 h4 b2 b3 b4 t4
          split
          · rename_i hc
            have e1 : (utf8EncodeChar (Char.ofNat
                ((b1 - 0xF0) * 262144 + (b2 - 0x80) * 4096
                  + (b3 - 0x80) * 64 + (b4 - 0x80))).toNat).length ≤ 4 :=
              le_trans (utf8EncodeChar_length_mono (char_toNat_ofNat_le _))
                (utf8EncodeChar_length_le_four _)
            have e2 := ih t4
            simp only [utf8Encode_cons, List.length_append, List.length_cons]
            omega
          · have e2 := ih (b2 :: b3 :: b4 :: t4)
            simp only [List.length_cons] at *
            omega
        · rename_i h1 h2 h3 h4 hx
          have e2 := ih t1
          simp only [List.length_cons]
          omega
      · -- invalid lead byte
        have e2 := ih t1
        simp only [List.length_cons]
        omega

/-- Witness for shouldRefresh_iff at concrete times on both sides of the
margin. -/
theorem shouldRefresh_iff_witness :
    shouldRefresh (some 20000) 0 = false ∧ shouldRefresh (some 500) 400 = true :=
  ⟨Bool.eq_false_iff.mpr fun h => by
      have := (shouldRefresh_iff 20000 0).mp h
      omega,
   (shouldRefresh_iff 500 400).mpr (by omega)⟩

/-- Splitting a string free of the separator gives it back whole. -/
theorem pySplitChar_of_not_mem (sep : Char) (a : PyStr) (h : sep ∉ a) :
    pySplitChar sep a = [a] := by
  induction a with
  | nil => rfl
  | cons c rest ih =>
    have hc : ¬(c = sep) := fun h' => h (h' ▸ List.mem_cons_self c rest)
    have hr : sep ∉ rest := fun h' => h (List.mem_cons_of_mem c h')
    simp [pySplitChar, ih hr, hc]

/-- Splitting peels off a separator-free prefix. -/
theorem pySplitChar_append (sep : Char) (a b : PyStr) (h : sep ∉ a) :
    pySplitChar sep (a ++ sep :: b) = a :: pySplitChar sep b := by
  induction a with
  | nil =>
    cases hb : pySplitChar sep b with
    | nil =>
      exfalso
      induction b with
      | nil => simp [pySplitChar] at hb
      | cons x xs ihb =>
        simp only [pySplitChar] at hb
        rcases hsplit : pySplitChar sep xs with _ | ⟨y, ys⟩
        · simp [hsplit] at hb
        · rw [hsplit] at hb
          by_cases hx : x = sep <;> simp [hx] at hb
    | cons y ys => simp [pySplitChar, hb]
  | cons c rest ih =>
    have hc : ¬(c = sep) := fun h' => h (h' ▸ List.mem_cons_self c rest)
    have hr : sep ∉ rest := fun h' => h (List.mem_cons_of_mem c h')
    simp only [List.cons_append, pySplitChar, List.append_eq]
    rw [ih hr]
    show (if c = sep then [] :: rest :: pySplitChar sep b
          else (c :: rest) :: pySplitChar sep b)
        = (c :: rest) :: pySplitChar sep b
    rw [if_neg hc]

/-- str.split(sep, 1) on name ++ sep ++ value finds the first separator. -/
theorem splitFirst_append (sep : Char) (k v : PyStr) (h : sep ∉ k) :
    splitFirst sep (k ++ sep :: v) = some (k, v) := by
  induction k with
  | nil => simp [splitFirst]
  | cons c rest ih =>
    have hc : ¬(c = sep) := fun h' => h (h' ▸ List.mem_cons_self c rest)
    have hr : sep ∉ rest := fun h' => h (List.mem_cons_of_mem c h')
    simp [splitFirst, hc, ih hr]

/-- The always-safe characters exclude the grammar characters of query
strings. -/
theorem isAlwaysSafe_excludes {c : Char} (h : isAlwaysSafe c = true) :
    c ≠ '%' ∧ c ≠ '+' ∧ c ≠ '&' ∧ c ≠ '=' := by
  refine ⟨?_, ?_, ?_, ?_⟩ <;> rintro rfl <;> simp [isAlwaysSafe] at h

/-- Percent-decoding is the identity on strings whose head is not '%',
one step. -/
theorem unquotePercent_cons_of_ne (c : Char) (rest : PyStr) (hc : c ≠ '%') :
    unquotePercent (c :: rest) = c :: unquotePercent rest := by
  rw [unquotePercent.eq_def]
  split <;> simp_all

/-- Percent-decoding is the identity on safe strings. -/
theorem unquotePercent_safe (s : PyStr) (h : ∀ c ∈ s, isAlwaysSafe c = true) :
    unquotePercent s = s := by
  induction s with
  | nil => rfl
  | cons c rest ih =>
    rw [unquotePercent_cons_of_ne c rest
      (isAlwaysSafe_excludes (h c (List.mem_cons_self c rest))).1]
    rw [ih fun d hd => h d (List.mem_cons_of_mem c hd)]

/-- Form-decoding is the identity on safe strings. -/
theorem unquotePlus_safe (s : PyStr) (h : ∀ c ∈ s, isAlwaysSafe c = true) :
    unquotePlus s = s := by
  unfold unquotePlus
  have hm : s.map (fun c => if c = '+' then ' ' else c) = s := by
    induction s with
    | nil => rfl
    | cons c rest ih =>
      simp only [List.map_cons,
        if_neg (isAlwaysSafe_excludes (h c (List.mem_cons_self c rest))).2.1]
      rw [ih fun d hd => h d (List.mem_cons_of_mem c hd)]
  rw [hm]
  exact unquotePercent_safe s h

/-- Form-encoding is the identity on safe strings. -/
theorem quotePlus_safe (s : PyStr) (h : ∀ c ∈ s, isAlwaysSafe c = true) :
    quotePlus s = s := by
  induction s with
  | nil => rfl
  | cons c rest ih =>
    show quotePlusChar c ++ quotePlus rest = c :: rest
    rw [quotePlusChar, if_pos (h c (List.mem_cons_self c rest)),
      ih fun d hd => h d (List.mem_cons_of_mem c hd)]
    rfl

/-- A rendered canonical field contains no '&'. -/
theorem renderField_no_amp (p : PyStr × PyStr)
    (h1 : ∀ c ∈ p.1, isAlwaysSafe c = true) (h2 : ∀ c ∈ p.2, isAlwaysSafe c = true) :
    '&' ∉ renderField p := by
  intro hmem
  rw [renderField] at hmem
  rcases List.mem_append.mp hmem with h | h
  · exact (isAlwaysSafe_excludes (h1 _ h)).2.2.1 rfl
  · rcases List.mem_cons.mp h with h | h
    · exact absurd h.symm (by decide)
    · exact (isAlwaysSafe_excludes (h2 _ h)).2.2.1 rfl

/-- One canonical field parses back to itself. -/
theorem parseQslField_render (p : PyStr × PyStr) (h1 : p.1 ≠ []) (h2 : p.2 ≠ [])
    (hs1 : ∀ c ∈ p.1, isAlwaysSafe c = true) (hs2 : ∀ c ∈ p.2, isAlwaysSafe c = true) :
    parseQslField (renderField p) = some p := by
  unfold parseQslField renderField
  rw [if_neg (by simp)]
  rw [splitFirst_append '=' p.1 p.2
    fun hmem => (isAlwaysSafe_excludes (hs1 _ hmem)).2.2.2 rfl]
  show (if p.2 = [] then none
        else some (unquotePlus p.1, unquotePlus p.2)) = some p
  rw [if_neg h2, unquotePlus_safe _ hs1, unquotePlus_safe _ hs2]

/-- parse_qsl inverts rendering on canonical field lists. -/
theorem parseQsl_render (fields : List (PyStr × PyStr)) (hcan : CanonicalFields fields) :
    parseQsl (renderQuery fields) = fields := by
  cases fields with
  | nil => rfl
  | cons f0 rest =>
    have hsplit : pySplitChar '&' (joinAmp ((f0 :: rest).map renderField))
        = (f0 :: rest).map renderField := by
      have hnoamp : ∀ x ∈ (f0 :: rest).map renderField, '&' ∉ x := by
        intro x hx
        rcases List.mem_map.mp hx with ⟨p, hp, rfl⟩
        obtain ⟨-, -, hs1, hs2⟩ := hcan p hp
        exact renderField_no_amp p (List.all_eq_true.mp hs1) (List.all_eq_true.mp hs2)
      clear hcan
      induction rest generalizing f0 with
      | nil =>
        simp only [List.map_cons, List.map_nil, joinAmp]
        exact pySplitChar_of_not_mem '&' (renderField f0)
          (hnoamp _ (List.mem_cons_self _ _))
      | cons f1 rest2 ih =>
        simp only [List.map_cons, joinAmp]
        rw [pySplitChar_append '&' _ _ (by
          have := hnoamp (renderField f0) (by simp)
          simpa using this)]
        have := ih f1 fun x hx => hnoamp x (List.mem_cons_of_mem _ hx)
        simp only [List.map_cons] at this
        rw [this]
    show ((pySplitChar '&' (renderQuery (f0 :: rest))).filterMap parseQslField) = f0 :: rest
    rw [show renderQuery (f0 :: rest) = joinAmp ((f0 :: rest).map renderField) from rfl,
      hsplit]
    have hfields := hcan
    generalize hfs : f0 :: rest = fs at hfields
    clear hsplit hcan hfs f0 rest
    induction fs with
    | nil => rfl
    | cons p ps ih =>
      obtain ⟨h1, h2, hs1, hs2⟩ := hfields p (List.mem_cons_self p ps)
      simp only [List.map_cons, List.filterMap_cons,
        parseQslField_render p h1 h2 (List.all_eq_true.mp hs1) (List.all_eq_true.mp hs2)]
      rw [ih fun q hq => hfields q (List.mem_cons_of_mem p hq)]
/-- Folding addGroup over pairs with fresh, pairwise-distinct keys
appends singleton groups in order. -/
theorem foldl_addGroup_fresh (pairs : List (PyStr × PyStr)) :
    ∀ acc : List (PyStr × List PyStr),
    (pairs.map Prod.fst).Nodup →
    (∀ p ∈ pairs, ∀ g ∈ acc, p.1 ≠ g.1) →
    pairs.foldl (fun gs p => addGroup gs p.1 p.2) acc
      = acc ++ pairs.map (fun p => (p.1, [p.2])) := by
  induction pairs with
  | nil => intro acc _ _; simp
  | cons p rest ih =>
    intro acc hnodup hdisj
    rw [List.map_cons] at hnodup
    obtain ⟨hnotmem, hrest⟩ := List.nodup_cons.mp hnodup
    have hany : acc.any (fun g => g.1 = p.1) = false := by
      rw [List.any_eq_false]
      intro g hg
      simpa using (hdisj p (List.mem_cons_self p rest) g hg).symm
    rw [List.foldl_cons,
      show addGroup acc p.1 p.2 = acc ++ [(p.1, [p.2])] by
        simp [addGroup, hany]]
    rw [ih (acc ++ [(p.1, [p.2])]) hrest ?_]
    · simp
    · intro q hq g hg
      rcases List.mem_append.mp hg with hg | hg
      · exact hdisj q (List.mem_cons_of_mem p hq) g hg
      · have hgq : g = (p.1, [p.2]) := by simpa using hg
        subst hgq
        intro hqe
        have hqe2 : q.1 = p.1 := hqe
        exact hnotmem (by
          rw [← hqe2]
          exact List.mem_map_of_mem Prod.fst hq)

/-- parse_qs of a canonical query with distinct keys: one singleton group
per field, in order. -/
theorem parseQs_render (fields : List (PyStr × PyStr)) (hcan : CanonicalFields fields)
    (hnodup : (fields.map Prod.fst).Nodup) :
    parseQs (renderQuery fields) = fields.map (fun p => (p.1, [p.2])) := by
  show (parseQsl (renderQuery fields)).foldl (fun gs p => addGroup gs p.1 p.2) []
      = fields.map (fun p => (p.1, [p.2]))
  rw [parseQsl_render fields hcan]
  simpa using foldl_addGroup_fresh fields [] hnodup (by simp)

/-- dict assignment with a present key rewrites that entry in place. -/
theorem dictSetList_present (gs : List (PyStr × List PyStr)) (k : PyStr)
    (vs : List PyStr) (h : gs.any (fun g => g.1 = k) = true) :
    dictSetList gs k vs = gs.map (fun g => if g.1 = k then (k, vs) else g) := by
  simp [dictSetList, h]

/-- urlencode(·, doseq=True) of singleton groups over safe strings
renders the fields back verbatim. -/
theorem urlencodeGroups_singletons (fields : List (PyStr × PyStr))
    (hsafe : ∀ p ∈ fields, (∀ c ∈ p.1, isAlwaysSafe c = true)
      ∧ ∀ c ∈ p.2, isAlwaysSafe c = true) :
    urlencodeGroups (fields.map (fun p => (p.1, [p.2]))) = renderQuery fields := by
  unfold urlencodeGroups renderQuery
  congr 1
  induction fields with
  | nil => rfl
  | cons p rest ih =>
    obtain ⟨hs1, hs2⟩ := hsafe p (List.mem_cons_self p rest)
    simp only [List.map_cons, List.map_nil, List.flatten_cons, List.singleton_append]
    rw [quotePlus_safe _ hs1, quotePlus_safe _ hs2]
    rw [ih fun q hq => hsafe q (List.mem_cons_of_mem p hq)]
    rfl

/-- An old URL for the _replace_token counterexample: a query holding a
blank-valued parameter next to the token. -/
def tokenOldUrl : ParsedUrl :=
  ⟨pstr "https", pstr "h", pstr "/p", [], pstr "empty=&hdnts=OLD", []⟩

/-- The refreshed URL carrying only the new token. -/
def tokenNewUrl : ParsedUrl :=
  ⟨pstr "https", pstr "h2", pstr "/p2", [], pstr "hdnts=NEW", []⟩

/-- Claim C6 counterexample: refreshing tokenOldUrl against tokenNewUrl
yields the query "hdnts=NEW" — the blank-valued parameter "empty=" of the
old URL is silently dropped by the parse_qs/urlencode round trip, so the
non-token part of the query is not byte-identical to before (the fields
other than hdnts change from ["empty="] to []). -/
theorem replace_token_drops_blank_param :
    (replaceToken tokenOldUrl tokenNewUrl).query = pstr "hdnts=NEW"
    ∧ queryFieldsExceptToken (replaceToken tokenOldUrl tokenNewUrl).query = []
    ∧ queryFieldsExceptToken tokenOldUrl.query = [pstr "empty="] := by
  refine ⟨by decide, by decide, by decide⟩

/-- Claim C6 (amended): _replace_token preserves the scheme, host, path,
params and fragment byte-for-byte, and for old queries in the canonical
form the platform issues — nonempty names and values over unreserved
characters, pairwise-distinct keys, token present — the new query is
byte-identical to the old except that the hdnts value is replaced by the
newly resolved token.  (Outside that form the query is re-encoded:
blank-valued or bare parameters are dropped and percent escapes
normalized, as the counterexample shows.) -/
theorem replace_token_amended (old new : ParsedUrl)
    (fields : List (PyStr × PyStr)) (tNew : PyStr)
    (hq : old.query = renderQuery fields)
    (hcan : CanonicalFields fields)
    (hnodup : (fields.map Prod.fst).Nodup)
    (hmem : pstr "hdnts" ∈ fields.map Prod.fst)
    (hnew : lookupGroup (parseQs new.query) (pstr "hdnts") = some [tNew])
    (htnew : tNew ≠ [] ∧ ∀ c ∈ tNew, isAlwaysSafe c = true) :
    (replaceToken old new).scheme = old.scheme
    ∧ (replaceToken old new).netloc = old.netloc
    ∧ (replaceToken old new).path = old.path
    ∧ (replaceToken old new).params = old.params
    ∧ (replaceToken old new).fragment = old.fragment
    ∧ (replaceToken old new).query
        = renderQuery (fields.map fun p =>
            if p.1 = pstr "hdnts" then (p.1, tNew) else p) := by
  refine ⟨rfl, rfl, rfl, rfl, rfl, ?_⟩
  show urlencodeGroups
      (match lookupGroup (parseQs new.query) (pstr "hdnts") with
        | some vs => dictSetList (parseQs old.query) (pstr "hdnts") vs
        | none => parseQs old.query)
    = _
  rw [hnew, hq, parseQs_render fields hcan hnodup]
  show urlencodeGroups
      (dictSetList (fields.map fun p => (p.1, [p.2])) (pstr "hdnts") [tNew])
    = renderQuery (fields.map fun p =>
        if p.1 = pstr "hdnts" then (p.1, tNew) else p)
  have hany : (fields.map fun p => (p.1, [p.2])).any
      (fun g => g.1 = pstr "hdnts") = true := by
    rw [List.any_eq_true]
    rcases List.mem_map.mp hmem with ⟨p, hp, hpk⟩
    exact ⟨(p.1, [p.2]), List.mem_map_of_mem _ hp, by simp [hpk]⟩
  rw [dictSetList_present _ _ _ hany]
  have hmaps : (fields.map fun p => (p.1, [p.2])).map
      (fun g => if g.1 = pstr "hdnts" then (pstr "hdnts", [tNew]) else g)
      = (fields.map fun p =>
          if p.1 = pstr "hdnts" then (p.1, tNew) else p).map fun p => (p.1, [p.2]) := by
    rw [List.map_map, List.map_map]
    refine List.map_congr_left fun p _ => ?_
    by_cases hp : p.1 = pstr "hdnts" <;> simp [hp]
  rw [hmaps]
  refine urlencodeGroups_singletons _ fun q hq2 => ?_
  rcases List.mem_map.mp hq2 with ⟨p, hp, rfl⟩
  obtain ⟨-, -, hs1, hs2⟩ := hcan p hp
  by_cases hpk : p.1 = pstr "hdnts"
  · simp only [hpk, if_pos rfl]
    refine ⟨fun c hc => ?_, fun c hc => htnew.2 c hc⟩
    rw [hpk] at hs1
    exact List.all_eq_true.mp hs1 c hc
  · simp only [if_neg hpk]
    exact ⟨List.all_eq_true.mp hs1, List.all_eq_true.mp hs2⟩

/-- Concrete old URL for the replace_token_amended witness. -/
def canonOldUrl : ParsedUrl :=
  ⟨pstr "https", pstr "h", pstr "/p", [], pstr "a=1&hdnts=OLD", []⟩

/-- Witness for replace_token_amended: a two-field canonical query whose
token is replaced and whose other field survives byte-identically. -/
theorem replace_token_amended_witness :
    CanonicalFields [(pstr "a", pstr "1"), (pstr "hdnts", pstr "OLD")]
    ∧ (replaceToken canonOldUrl tokenNewUrl).query
        = renderQuery ([(pstr "a", pstr "1"), (pstr "hdnts", pstr "OLD")].map
            fun p => if p.1 = pstr "hdnts" then (p.1, pstr "NEW") else p) :=
  ⟨by decide,
    (replace_token_amended canonOldUrl tokenNewUrl
      [(pstr "a", pstr "1"), (pstr "hdnts", pstr "OLD")] (pstr "NEW")
      (by decide) (by decide) (by decide) (by decide) (by decide)
      ⟨by decide, by decide⟩).2.2.2.2.2⟩

/-- A fixed stand-in for sha256(...).hexdigest()[:8]: some function
producing eight ASCII characters. -/
def constHash8 : List Nat → PyStr :=
  fun _ => ['0', '0', '0', '0', '0', '0', '0', '0']

/-- A filename whose splitext extension is longer than the 255-byte
ceiling leaves: "a." followed by 300 times "x". -/
def longExtName : PyStr := 'a' :: '.' :: List.replicate 300 'x'

set_option maxRecDepth 8192 in
/-- Claim C7 counterexample: longExtName's UTF-8 encoding has 302 bytes,
above the 255-byte ceiling, yet shorten_filename returns a name of 310
bytes: os.path.splitext assigns the whole 301-byte tail to the extension,
max_name_length goes negative, the truncated stem is empty, and the hash
plus extension alone overshoot the ceiling. -/
theorem shorten_filename_exceeds_limit :
    (utf8Encode longExtName).length = 302
    ∧ (utf8Encode (shorten_filename constHash8 longExtName)).length = 310 := by
  constructor
  · decide
  · decide

/-- Claim C7 (amended): the title sanitizer removes every occurrence of
the reserved characters; and for every filename whose UTF-8 encoding
exceeds 255 bytes and whose computed extension leaves a non-negative stem
budget (extension bytes + hash bytes + separator ≤ 255 — true of the
".ts.part" names the recorder builds, and the condition the
counterexample shows necessary), the output of shorten_filename — the
byte-truncated stem, an underscore, the 8-character content hash of the
full name, and the extension — encodes to at most 255 bytes.  The output
is a function of the input alone (the model is a pure function of the
name and the hash of its bytes), hence deterministic. -/
theorem shorten_filename_amended :
    (∀ (s : PyStr), ∀ c ∈ removeSpecialChars s, ¬ c ∈ specialChars)
    ∧ ∀ (hash8 : List Nat → PyStr),
        (∀ bs, (hash8 bs).length = 8 ∧ ∀ c ∈ hash8 bs, c.toNat < 128) →
        ∀ f : PyStr, 255 < (utf8Encode f).length →
          (utf8Encode (splitPart f).2).length + 9 ≤ 255 →
          (utf8Encode (shorten_filename hash8 f)).length ≤ 255 := by
  constructor
  · intro s c hc hmem
    simp only [removeSpecialChars, List.mem_filter, Bool.not_eq_true'] at hc
    rw [List.any_eq_false] at hc
    have h2 := hc.2 c hmem
    simp at h2
  · intro hash8 hh f hlong hext
    have h8 := hh (utf8Encode f)
    simp only [shorten_filename]
    rw [if_pos (show MAX_FILENAME_BYTES < (utf8Encode f).length from hlong)]
    rw [utf8Encode_append, utf8Encode_append, utf8Encode_cons]
    simp only [List.length_append]
    have hund : (utf8EncodeChar '_'.toNat).length = 1 :=
      utf8EncodeChar_length_one (by decide)
    have hhash : (utf8Encode (hash8 (utf8Encode f))).length = 8 := by
      rw [utf8Encode_length_ascii _ h8.2, h8.1]
    have hdec := utf8DecodeLoop_length_le
      (pyBytesTake (utf8Encode (splitPart f).1)
        ((MAX_FILENAME_BYTES : Int)
          - ((utf8Encode (splitPart f).2).length + MAX_HASH_LENGTH + 1))).length
      (pyBytesTake (utf8Encode (splitPart f).1)
        ((MAX_FILENAME_BYTES : Int)
          - ((utf8Encode (splitPart f).2).length + MAX_HASH_LENGTH + 1)))
    have htake : (pyBytesTake (utf8Encode (splitPart f).1)
        ((MAX_FILENAME_BYTES : Int)
          - ((utf8Encode (splitPart f).2).length + MAX_HASH_LENGTH + 1))).length
        ≤ 255 - ((utf8Encode (splitPart f).2).length + 9) := by
      simp only [pyBytesTake, MAX_FILENAME_BYTES, MAX_HASH_LENGTH]
      rw [if_pos (by omega)]
      rw [List.length_take]
      omega
    simp only [utf8DecodeIgnore, MAX_FILENAME_BYTES, MAX_HASH_LENGTH] at *
    omega

/-- constHash8 produces eight ASCII characters for every input. -/
theorem constHash8_spec (bs : List Nat) :
    (constHash8 bs).length = 8 ∧ ∀ c ∈ constHash8 bs, c.toNat < 128 := by
  constructor
  · rfl
  · intro c hc
    rw [show constHash8 bs = ['0', '0', '0', '0', '0', '0', '0', '0'] from rfl] at hc
    simp only [List.mem_cons, List.not_mem_nil, or_false] at hc
    rcases hc with rfl | rfl | rfl | rfl | rfl | rfl | rfl | rfl <;> decide

set_option maxRecDepth 8192 in
/-- Witness for shorten_filename_amended: an over-long all-ASCII name
with the ".ts.part" extension shortens to exactly the ceiling. -/
theorem shorten_filename_amended_witness :
    255 < (utf8Encode (List.replicate 300 'b' ++ pstr ".ts.part")).length
    ∧ (utf8Encode
        (shorten_filename constHash8 (List.replicate 300 'b' ++ pstr ".ts.part"))).length
      ≤ 255 :=
  ⟨by decide,
   shorten_filename_amended.2 constHash8 constHash8_spec _
     (by decide) (by decide)⟩

/-- Claim C9: with no exp query parameter (which includes a blank exp
value, dropped by parse_qs), or a first exp value that is not all digits,
_get_expire_time stores None and _should_refresh is false at every
current time, so no proactive refresh ever triggers. -/
theorem getExpireTime_none_never_refreshes (query : PyStr) (now : Int)
    (h : lookupGroup (parseQs query) (pstr "exp") = none
       ∨ ∃ v rest, lookupGroup (parseQs query) (pstr "exp") = some (v :: rest)
           ∧ pyIsdigit v = false) :
    getExpireTime query = none
    ∧ shouldRefresh (getExpireTime query) now = false := by
  have hg : getExpireTime query = none := by
    rcases h with h | ⟨v, rest, h, hv⟩
    · simp [getExpireTime, h]
    · simp [getExpireTime, h, hv]
  exact ⟨hg, by rw [hg]; rfl⟩

/-- Witness for getExpireTime_none_never_refreshes: a query with no exp
parameter. -/
theorem getExpireTime_none_never_refreshes_witness :
    lookupGroup (parseQs (pstr "a=1")) (pstr "exp") = none
    ∧ getExpireTime (pstr "a=1") = none
    ∧ shouldRefresh (getExpireTime (pstr "a=1")) 12345 = false :=
  ⟨by decide,
   (getExpireTime_none_never_refreshes (pstr "a=1") 12345 (Or.inl (by decide))).1,
   (getExpireTime_none_never_refreshes (pstr "a=1") 12345 (Or.inl (by decide))).2⟩

/-- Invariant of the record_stream transition system: a live pipeline
implies a progress entry, a finished task has neither entry nor live
processes, a recording phase has both, and the output file is never
deleted. -/
theorem recReachable_invariant (s : RecState) (h : RecReachable s) :
    (sessionActive s = true → s.entry = true)
    ∧ (s.phase = .finished → s.entry = false ∧ sessionActive s = false)
    ∧ (s.phase = .recording → s.entry = true ∧ sessionActive s = true)
    ∧ s.file ≠ .deleted := by
  induction h with
  | init => simp [recInit, sessionActive]
  | step _ hstep ih =>
    cases hstep with
    | start e sr fr f => simp [sessionActive]
    | normalExit e sr fr => simp [sessionActive]
    | errorExit e sr fr => simp [sessionActive]
    | shutdownExit e sr fr => simp [sessionActive]
    | cancelExit e sr fr => simp [sessionActive]
    | endTask e sr fr f =>
      refine ⟨by simp [sessionActive], by simp [sessionActive], by simp, ?_⟩
      exact ih.2.2.2

/-- Claim C2: whenever the channel task terminates — the finally block of
record_stream runs on every exit of the task body, and cancellation or
shutdown lands there — both subprocess handles come out with their exit
observed (returncode set), and the temporary output file is either
renamed to its final name or left exactly as it was, never deleted; at
the trace level, a finished task has no live subprocess and no reachable
state ever holds a deleted file. -/
theorem record_stream_termination_cleanup (s : FinalizeState) :
    (∀ p, (recordStreamFinally s).streamProcess = some p → p.running = false)
    ∧ (∀ p, (recordStreamFinally s).ffmpegProcess = some p → p.running = false)
    ∧ ((recordStreamFinally s).file = .final ∨ (recordStreamFinally s).file = s.file)
    ∧ ((recordStreamFinally s).file = .deleted → s.file = .deleted)
    ∧ (∀ st, RecReachable st →
        st.file ≠ .deleted ∧ (st.phase = .finished → sessionActive st = false)) := by
  refine ⟨?_, ?_, ?_, ?_, ?_⟩
  · intro p hp
    cases hs : s.streamProcess with
    | none => simp [recordStreamFinally, killAwait, hs] at hp
    | some q =>
      simp only [recordStreamFinally, killAwait, hs] at hp
      by_cases hq : q.running = true
      · simp [hq] at hp; rw [← hp]
      · simp [hq] at hp; rw [← hp]; simpa using hq
  · intro p hp
    cases hs : s.ffmpegProcess with
    | none => simp [recordStreamFinally, killAwait, hs] at hp
    | some q =>
      simp only [recordStreamFinally, killAwait, hs] at hp
      by_cases hq : q.running = true
      · simp [hq] at hp; rw [← hp]
      · simp [hq] at hp; rw [← hp]; simpa using hq
  · by_cases hc : s.recordingStarted = true ∧ s.file = .temp
    · left; simp [recordStreamFinally, hc]
    · right; simp [recordStreamFinally, hc]
  · intro h
    by_cases hc : s.recordingStarted = true ∧ s.file = .temp
    · simp [recordStreamFinally, hc] at h
    · simpa [recordStreamFinally, hc] using h
  · intro st hst
    exact ⟨(recReachable_invariant st hst).2.2.2,
      fun hf => ((recReachable_invariant st hst).2.1 hf).2⟩

/-- Witness for record_stream_termination_cleanup: the finalizer on a
state with both processes live and a temporary file. -/
theorem record_stream_termination_cleanup_witness :
    (recordStreamFinally ⟨some ⟨true⟩, some ⟨true⟩, true, .temp⟩).streamProcess
        = some ⟨false⟩
    ∧ (⟨false⟩ : ProcHandle).running = false
    ∧ ((recordStreamFinally ⟨some ⟨true⟩, some ⟨true⟩, true, .temp⟩).file = .final
        ∨ (recordStreamFinally ⟨some ⟨true⟩, some ⟨true⟩, true, .temp⟩).file = .temp) :=
  ⟨by decide,
   (record_stream_termination_cleanup ⟨some ⟨true⟩, some ⟨true⟩, true, .temp⟩).1
     ⟨false⟩ (by decide),
   (record_stream_termination_cleanup ⟨some ⟨true⟩, some ⟨true⟩, true, .temp⟩).2.2.1⟩

/-- The state record_stream reaches by starting a pipeline and then
hitting an exception between pipeline termination and the removal of the
progress entry: back in the waiting loop, processes exited, entry still
present. -/
def staleEntryState : RecState := ⟨.waiting, true, false, false, .temp⟩

/-- Claim C1 counterexample: the state reached by start followed by an
error during recording (for instance the rename at lines 766-767
raising) is reachable, and there the progress entry exists while the
subprocess pipeline is not active — membership does not track session
liveness on the error exit path. -/
theorem progress_entry_outlives_session :
    RecReachable staleEntryState
    ∧ ¬(staleEntryState.entry = true ↔ sessionActive staleEntryState = true) := by
  constructor
  · exact RecReachable.step
      (RecReachable.step RecReachable.init (RecStep.start false false false .absent))
      (RecStep.errorExit true true true)
  · decide

/-- Claim C1 (amended): the progress entry is created when the pipeline
starts, and removed on the normal pipeline exit, shutdown, cancellation
and task-end paths; an active pipeline always has an entry, and a
finished task never does.  On the caught-error path during recording the
entry persists (without an active pipeline) until the next pipeline start
or the end of the task — the code removes it only at lines 770-772 and
816-817, which that path skips. -/
theorem progress_entry_tracking_amended :
    (∀ s, RecReachable s →
      (sessionActive s = true → s.entry = true)
      ∧ (s.phase = .finished → s.entry = false))
    ∧ (∀ k (s s' : RecState), RecStep k s s' →
        (k = .normalExit ∨ k = .shutdownExit ∨ k = .cancelExit ∨ k = .endTask) →
        s'.entry = false)
    ∧ (∀ k (s s' : RecState), RecStep k s s' → k = .start → s'.entry = true) := by
  refine ⟨?_, ?_, ?_⟩
  · intro s hs
    exact ⟨(recReachable_invariant s hs).1, fun hf => ((recReachable_invariant s hs).2.1 hf).1⟩
  · intro k s s' hstep hk
    cases hstep <;> simp_all
  · intro k s s' hstep hk
    cases hstep <;> simp_all

/-- Witness for progress_entry_tracking_amended: the state right after a
pipeline start is reachable and carries the entry. -/
theorem progress_entry_tracking_amended_witness :
    RecReachable (⟨.recording, true, true, true, .temp⟩ : RecState)
    ∧ (⟨.recording, true, true, true, .temp⟩ : RecState).entry = true :=
  ⟨RecReachable.step RecReachable.init (RecStep.start false false false .absent),
   (progress_entry_tracking_amended.1 ⟨.recording, true, true, true, .temp⟩
      (RecReachable.step RecReachable.init (RecStep.start false false false .absent))).1
     rfl⟩

/-- Witness for fetchPlaylist_retry_once: a 404 then a successful fetch. -/
theorem fetchPlaylist_retry_once_witness :
    (fun n => if n = 0 then FetchRes.err (some 404) else FetchRes.ok 7) 0
        = FetchRes.err (some 404)
    ∧ fetchPlaylist (fun n => if n = 0 then FetchRes.err (some 404) else FetchRes.ok 7)
        = ⟨.ok 7, 1, 2⟩ :=
  ⟨rfl,
    (fetchPlaylist_retry_once
      (fun n => if n = 0 then FetchRes.err (some 404) else FetchRes.ok 7)
      404 rfl (by decide)).1 7 rfl⟩

/-- memS decides membership. -/
theorem memS_true_iff (k : PyStr) (l : List PyStr) : memS k l = true ↔ k ∈ l := by
  simp only [memS, List.any_eq_true, decide_eq_true_eq]
  constructor
  · rintro ⟨x, hx, rfl⟩; exact hx
  · intro h; exact ⟨k, h, rfl⟩

/-- memS = false is non-membership. -/
theorem memS_false_iff (k : PyStr) (l : List PyStr) : memS k l = false ↔ k ∉ l := by
  rw [Bool.eq_false_iff, Ne, memS_true_iff]

/-- The loop's dict-membership test agrees with memS over the key list. -/
theorem tasks_any_eq (ts : List (PyStr × Nat)) (k : PyStr) :
    (ts.any fun t => t.1 = k) = memS k (taskKeys ts) := by
  induction ts with
  | nil => rfl
  | cons t rest ih =>
    simp only [List.any_cons, memS, taskKeys, List.map_cons] at *
    rw [ih]

/-- Walking a concatenation is walking each part in turn. -/
theorem managePhase2_append (l1 l2 : List ChanCfg) :
    ∀ st, managePhase2 (l1 ++ l2) st = managePhase2 l2 (managePhase2 l1 st) := by
  induction l1 with
  | nil => intro st; rfl
  | cons ch rest ih =>
    intro st
    obtain ⟨ts, pr, fresh⟩ := st
    simp only [List.cons_append, managePhase2]
    split_ifs <;> apply ih

/-- Channels whose id differs from k neither create, remove nor retouch
k's task or progress entry. -/
theorem managePhase2_frame (cs : List ChanCfg) :
    ∀ (st : List (PyStr × Nat) × List PyStr × Nat) (k : PyStr),
      (∀ ch ∈ cs, ch.id ≠ k) →
      (∀ tok : Nat, (k, tok) ∈ (managePhase2 cs st).1 ↔ (k, tok) ∈ st.1)
      ∧ memS k (taskKeys (managePhase2 cs st).1) = memS k (taskKeys st.1)
      ∧ memS k (managePhase2 cs st).2.1 = memS k st.2.1 := by
  induction cs with
  | nil => intro st k _; exact ⟨fun _ => Iff.rfl, rfl, rfl⟩
  | cons ch rest ih =>
    intro st k hk
    obtain ⟨ts, pr, fresh⟩ := st
    have hch : ch.id ≠ k := hk ch (List.mem_cons_self ch rest)
    have hrest : ∀ c ∈ rest, c.id ≠ k := fun c hc => hk c (List.mem_cons_of_mem ch hc)
    simp only [managePhase2]
    split_ifs with h1 h2 h3 h4
    · exact ih _ k hrest
    · obtain ⟨ihm, ihk, ihp⟩ := ih (ts ++ [(ch.id, fresh)], pr, fresh + 1) k hrest
      refine ⟨fun tok => (ihm tok).trans ?_, ihk.trans ?_, ihp⟩
      · constructor
        · intro h
          rcases List.mem_append.mp h with h | h
          · exact h
          · exfalso
            have : k = ch.id := congrArg Prod.fst (List.mem_singleton.mp h)
            exact hch this.symm
        · exact fun h => List.mem_append_left _ h
      · simp only [taskKeys, List.map_append, List.map_cons, List.map_nil, memS,
          List.any_append]
        have : ([ch.id].any fun x => x = k) = false := by
          simp [hch]
        simp [this]
    · exact ih _ k hrest
    · obtain ⟨ihm, ihk, ihp⟩ := ih
        (ts.filter (fun t => !(t.1 = ch.id)), pr.filter (fun c => !(c = ch.id)), fresh)
        k hrest
      refine ⟨fun tok => (ihm tok).trans ?_, ihk.trans ?_, ihp.trans ?_⟩
      · simp only [List.mem_filter, Bool.not_eq_eq_eq_not, Bool.not_true,
          decide_eq_false_iff_not]
        exact ⟨fun h => h.1, fun h => ⟨h, Ne.symm hch⟩⟩
      · rw [Bool.eq_iff_iff, memS_true_iff, memS_true_iff]
        simp only [taskKeys, List.mem_map, List.mem_filter]
        constructor
        · rintro ⟨t, ⟨ht, -⟩, rfl⟩
          exact ⟨t, ht, rfl⟩
        · rintro ⟨t, ht, rfl⟩
          exact ⟨t, ⟨ht, by simpa using Ne.symm hch⟩, rfl⟩
      · rw [Bool.eq_iff_iff, memS_true_iff, memS_true_iff]
        simp only [List.mem_filter]
        exact ⟨fun h => h.1, fun h => ⟨h, by simpa using Ne.symm hch⟩⟩
    · exact ih _ k hrest

/-- The task counter never decreases along the walk. -/
theorem managePhase2_fresh_le (cs : List ChanCfg) :
    ∀ st, st.2.2 ≤ (managePhase2 cs st).2.2 := by
  induction cs with
  | nil => intro st; exact le_refl _
  | cons ch rest ih =>
    intro st
    obtain ⟨ts, pr, fresh⟩ := st
    simp only [managePhase2]
    split_ifs <;> refine le_trans ?_ (ih _) <;> simp

/-- The walk preserves distinctness of task keys. -/
theorem managePhase2_keys_nodup (cs : List ChanCfg) :
    ∀ st, (taskKeys st.1).Nodup → (taskKeys (managePhase2 cs st).1).Nodup := by
  induction cs with
  | nil => intro st h; exact h
  | cons ch rest ih =>
    intro st h
    obtain ⟨ts, pr, fresh⟩ := st
    simp only [managePhase2]
    split_ifs with h1 h2 h3 h4
    · exact ih _ h
    · apply ih
      have hnot : ch.id ∉ taskKeys ts := by
        rw [← memS_false_iff, ← tasks_any_eq]
        simpa using h2
      simp only [taskKeys, List.map_append, List.map_cons, List.map_nil] at *
      rw [List.nodup_append]
      exact ⟨h, List.nodup_singleton _, by
        intro a ha hb
        rw [List.mem_singleton] at hb
        exact hnot (hb ▸ ha)⟩
    · exact ih _ h
    · apply ih
      simp only [taskKeys] at *
      exact h.sublist (List.Sublist.map _ (List.filter_sublist ts))
    · exact ih _ h

/-- Phase 1 of the pass (lines 850-864), as managePass computes it. -/
theorem managePass_eq (channels : List ChanCfg) (ts : List (PyStr × Nat))
    (pr : List PyStr) (fresh : Nat) :
    managePass channels ts pr fresh
      = managePhase2 channels
          (ts.filter (fun t => memS t.1 (channels.map (·.id))),
           pr.filter (fun c =>
             !(memS c (taskKeys ts) && !(memS c (channels.map (·.id))))),
           fresh) := rfl

/-- Keys surviving the phase-1 filter are keys of the original tasks. -/
theorem memS_keys_filter_false (ts : List (PyStr × Nat)) (p : PyStr × Nat → Bool)
    (k : PyStr) (h : memS k (taskKeys ts) = false) :
    memS k (taskKeys (ts.filter p)) = false := by
  rw [memS_false_iff] at h ⊢
  intro hmem
  apply h
  simp only [taskKeys, List.mem_map, List.mem_filter] at hmem ⊢
  obtain ⟨t, ⟨ht, -⟩, rfl⟩ := hmem
  exact ⟨t, ht, rfl⟩

/-- Splitting the channel-id Nodup around one occurrence. -/
theorem nodup_ids_split (pre post : List ChanCfg) (ch : ChanCfg)
    (h : ((pre ++ ch :: post).map (·.id)).Nodup) :
    (∀ c ∈ pre, c.id ≠ ch.id) ∧ (∀ c ∈ post, c.id ≠ ch.id) := by
  rw [List.map_append, List.map_cons, List.nodup_append] at h
  obtain ⟨-, hcons, hdisj⟩ := h
  constructor
  · intro c hc he
    exact hdisj (List.mem_map_of_mem _ hc) (List.mem_cons.mpr (Or.inl he))
  · intro c hc he
    exact (List.nodup_cons.mp hcons).1 (he ▸ List.mem_map_of_mem (·.id) hc)

/-- Claim C3 part: a present, active, empty-free channel id without a
running task gets exactly one fresh task. -/
theorem managePass_starts (channels : List ChanCfg) (ts : List (PyStr × Nat))
    (pr : List PyStr) (fresh : Nat)
    (hnodupC : (channels.map (·.id)).Nodup)
    (ch : ChanCfg) (hchmem : ch ∈ channels) (hid : ¬(ch.id = []))
    (hon : ch.active = pstr "on")
    (hnotrun : memS ch.id (taskKeys ts) = false) :
    ∃ tok, fresh ≤ tok ∧ (ch.id, tok) ∈ (managePass channels ts pr fresh).1 := by
  obtain ⟨pre, post, rfl⟩ := List.append_of_mem hchmem
  obtain ⟨hpre, hpost⟩ := nodup_ids_split pre post ch hnodupC
  rw [managePass_eq, managePhase2_append]
  rcases hst1 : managePhase2 pre
      (ts.filter (fun t => memS t.1 (((pre ++ ch :: post)).map (·.id))),
       pr.filter (fun c =>
         !(memS c (taskKeys ts) && !(memS c (((pre ++ ch :: post)).map (·.id))))),
       fresh)
    with ⟨ts2, pr2, fresh2⟩
  have hkeys2 : memS ch.id (taskKeys ts2) = false := by
    have hfr := (managePhase2_frame pre
      (ts.filter (fun t => memS t.1 (((pre ++ ch :: post)).map (·.id))),
       pr.filter (fun c =>
         !(memS c (taskKeys ts) && !(memS c (((pre ++ ch :: post)).map (·.id))))),
       fresh) ch.id hpre).2.1
    rw [hst1] at hfr
    rw [hfr]
    exact memS_keys_filter_false ts _ ch.id hnotrun
  have hle : fresh ≤ fresh2 := by
    have hm := managePhase2_fresh_le pre
      (ts.filter (fun t => memS t.1 (((pre ++ ch :: post)).map (·.id))),
       pr.filter (fun c =>
         !(memS c (taskKeys ts) && !(memS c (((pre ++ ch :: post)).map (·.id))))),
       fresh)
    rw [hst1] at hm
    exact hm
  rw [hst1]
  simp only [managePhase2]
  rw [if_neg hid,
    if_pos (show (!(ts2.any fun t => t.1 = ch.id)) = true by
      rw [tasks_any_eq, hkeys2]; rfl),
    if_pos hon]
  refine ⟨fresh2, hle, ?_⟩
  exact ((managePhase2_frame post
      (ts2 ++ [(ch.id, fresh2)], pr2, fresh2 + 1) ch.id hpost).1 fresh2).mpr
    (List.mem_append_right _ (List.mem_singleton.mpr rfl))

/-- Claim C3 part: a running task whose channel id left the desired set
is cancelled and its progress entry removed. -/
theorem managePass_cancels_absent (channels : List ChanCfg)
    (ts : List (PyStr × Nat)) (pr : List PyStr) (fresh : Nat)
    (t : PyStr × Nat) (hts : t ∈ ts)
    (habs : memS t.1 (channels.map (·.id)) = false) :
    memS t.1 (taskKeys (managePass channels ts pr fresh).1) = false
    ∧ memS t.1 (managePass channels ts pr fresh).2.1 = false := by
  have hni : ∀ ch ∈ channels, ch.id ≠ t.1 := by
    intro c hc he
    rw [memS_false_iff] at habs
    exact habs (he ▸ List.mem_map_of_mem (·.id) hc)
  rw [managePass_eq]
  obtain ⟨-, hfrk, hfrp⟩ := managePhase2_frame channels
    (ts.filter (fun t => memS t.1 (channels.map (·.id))),
     pr.filter (fun c =>
       !(memS c (taskKeys ts) && !(memS c (channels.map (·.id))))),
     fresh) t.1 hni
  refine ⟨hfrk.trans ?_, hfrp.trans ?_⟩
  · rw [memS_false_iff]
    intro hmem
    simp only [taskKeys, List.mem_map, List.mem_filter] at hmem
    obtain ⟨u, ⟨-, hu⟩, hequ⟩ := hmem
    rw [hequ, habs] at hu
    cases hu
  · rw [memS_false_iff]
    intro hmem
    rw [List.mem_filter] at hmem
    have hkeys : memS t.1 (taskKeys ts) = true :=
      (memS_true_iff _ _).mpr (List.mem_map_of_mem Prod.fst hts)
    rw [hkeys, habs] at hmem
    simp at hmem

/-- Claim C3 part: a running task whose channel is present but marked
off is cancelled and its progress entry removed. -/
theorem managePass_cancels_inactive (channels : List ChanCfg)
    (ts : List (PyStr × Nat)) (pr : List PyStr) (fresh : Nat)
    (hnodupC : (channels.map (·.id)).Nodup)
    (hne : ∀ t ∈ ts, ¬(t.1 = []))
    (t : PyStr × Nat) (hts : t ∈ ts)
    (ch : ChanCfg) (hchmem : ch ∈ channels) (hcid : ch.id = t.1)
    (hoff : ch.active = pstr "off") :
    memS t.1 (taskKeys (managePass channels ts pr fresh).1) = false
    ∧ memS t.1 (managePass channels ts pr fresh).2.1 = false := by
  obtain ⟨pre, post, rfl⟩ := List.append_of_mem hchmem
  obtain ⟨hpre, hpost⟩ := nodup_ids_split pre post ch hnodupC
  rw [hcid] at hpre hpost
  rw [managePass_eq, managePhase2_append]
  rcases hst1 : managePhase2 pre
      (ts.filter (fun u => memS u.1 (((pre ++ ch :: post)).map (·.id))),
       pr.filter (fun c =>
         !(memS c (taskKeys ts) && !(memS c (((pre ++ ch :: post)).map (·.id))))),
       fresh)
    with ⟨ts2, pr2, fresh2⟩
  have hmemfilter : t ∈ ts.filter (fun u => memS u.1 (((pre ++ ch :: post)).map (·.id))) := by
    rw [List.mem_filter]
    refine ⟨hts, (memS_true_iff _ _).mpr ?_⟩
    rw [← hcid]
    exact List.mem_map_of_mem (·.id) hchmem
  have hkeys2 : memS t.1 (taskKeys ts2) = true := by
    have hfr := managePhase2_frame pre
      (ts.filter (fun u => memS u.1 (((pre ++ ch :: post)).map (·.id))),
       pr.filter (fun c =>
         !(memS c (taskKeys ts) && !(memS c (((pre ++ ch :: post)).map (·.id))))),
       fresh) t.1 hpre
    rw [hst1] at hfr
    rw [memS_true_iff]
    have hmem2 : (t.1, t.2) ∈ ts2 := (hfr.1 t.2).mpr hmemfilter
    exact List.mem_map_of_mem Prod.fst hmem2
  rw [hst1]
  simp only [managePhase2]
  rw [hcid, if_neg (hne t hts),
    if_neg (show ¬((!(ts2.any fun u => u.1 = t.1)) = true) by
      rw [tasks_any_eq, hkeys2]; simp),
    if_pos hoff]
  obtain ⟨-, hfrk, hfrp⟩ := managePhase2_frame post
    (ts2.filter (fun u => !(u.1 = t.1)), pr2.filter (fun c => !(c = t.1)), fresh2)
    t.1 hpost
  refine ⟨hfrk.trans ?_, hfrp.trans ?_⟩
  · rw [memS_false_iff]
    intro hmem
    simp only [taskKeys, List.mem_map, List.mem_filter] at hmem
    obtain ⟨u, ⟨-, hu⟩, hequ⟩ := hmem
    rw [hequ] at hu
    simp at hu
  · rw [memS_false_iff]
    intro hmem
    rw [List.mem_filter] at hmem
    have := hmem.2
    simp at this

/-- Claim C3 part: a running task for a still-present channel marked on
survives the pass with its identity (token) intact — it is not
restarted. -/
theorem managePass_keeps (channels : List ChanCfg)
    (ts : List (PyStr × Nat)) (pr : List PyStr) (fresh : Nat)
    (hnodupC : (channels.map (·.id)).Nodup)
    (hne : ∀ t ∈ ts, ¬(t.1 = []))
    (t : PyStr × Nat) (hts : t ∈ ts)
    (ch : ChanCfg) (hchmem : ch ∈ channels) (hcid : ch.id = t.1)
    (hon : ch.active = pstr "on") :
    t ∈ (managePass channels ts pr fresh).1 := by
  obtain ⟨pre, post, rfl⟩ := List.append_of_mem hchmem
  obtain ⟨hpre, hpost⟩ := nodup_ids_split pre post ch hnodupC
  rw [hcid] at hpre hpost
  rw [managePass_eq, managePhase2_append]
  rcases hst1 : managePhase2 pre
      (ts.filter (fun u => memS u.1 (((pre ++ ch :: post)).map (·.id))),
       pr.filter (fun c =>
         !(memS c (taskKeys ts) && !(memS c (((pre ++ ch :: post)).map (·.id))))),
       fresh)
    with ⟨ts2, pr2, fresh2⟩
  have hmemfilter : t ∈ ts.filter (fun u => memS u.1 (((pre ++ ch :: post)).map (·.id))) := by
    rw [List.mem_filter]
    refine ⟨hts, (memS_true_iff _ _).mpr ?_⟩
    rw [← hcid]
    exact List.mem_map_of_mem (·.id) hchmem
  have hfr := managePhase2_frame pre
    (ts.filter (fun u => memS u.1 (((pre ++ ch :: post)).map (·.id))),
     pr.filter (fun c =>
       !(memS c (taskKeys ts) && !(memS c (((pre ++ ch :: post)).map (·.id))))),
     fresh) t.1 hpre
  rw [hst1] at hfr
  have hmem2 : (t.1, t.2) ∈ ts2 := (hfr.1 t.2).mpr hmemfilter
  have hkeys2 : memS t.1 (taskKeys ts2) = true := by
    rw [memS_true_iff]
    exact List.mem_map_of_mem Prod.fst hmem2
  rw [hst1]
  simp only [managePhase2]
  rw [hcid, if_neg (hne t hts),
    if_neg (show ¬((!(ts2.any fun u => u.1 = t.1)) = true) by
      rw [tasks_any_eq, hkeys2]; simp),
    if_neg (show ¬(ch.active = pstr "off") by rw [hon]; decide)]
  have hfr2 := managePhase2_frame post (ts2, pr2, fresh2) t.1 hpost
  exact (hfr2.1 t.2).mpr hmem2

/-- Claim C3 part: the pass keeps task keys pairwise distinct, so a
started channel holds exactly one task. -/
theorem managePass_nodup (channels : List ChanCfg) (ts : List (PyStr × Nat))
    (pr : List PyStr) (fresh : Nat) (h : (taskKeys ts).Nodup) :
    (taskKeys (managePass channels ts pr fresh).1).Nodup := by
  rw [managePass_eq]
  apply managePhase2_keys_nodup
  exact h.sublist (List.Sublist.map _ (List.filter_sublist ts))

/-- Claim C3: one reconciliation pass over the desired channel list and
the running-task map — with pairwise-distinct channel ids, distinct
nonempty task keys, and running tokens allocated below the counter —
starts exactly one fresh task for every present, active channel not yet
running (a task with a token the counter had not yet issued, unique by
the Nodup conjunct); cancels, with progress-entry removal, every running
task whose channel is absent or marked off; and leaves a running task of
a still-present active channel untouched, same token, whatever the rest
of its configuration now says. -/
theorem manage_pass_reconciliation (channels : List ChanCfg)
    (ts : List (PyStr × Nat)) (pr : List PyStr) (fresh : Nat)
    (hnodupC : (channels.map (·.id)).Nodup)
    (hnodupT : (taskKeys ts).Nodup)
    (hne : ∀ t ∈ ts, ¬(t.1 = []))
    (htok : ∀ t ∈ ts, t.2 < fresh) :
    (∀ ch ∈ channels, ¬(ch.id = []) → ch.active = pstr "on" →
        memS ch.id (taskKeys ts) = false →
        ∃ tok, fresh ≤ tok ∧ (ch.id, tok) ∈ (managePass channels ts pr fresh).1)
    ∧ (∀ t ∈ ts,
        (memS t.1 (channels.map (·.id)) = false
          ∨ ∃ ch ∈ channels, ch.id = t.1 ∧ ch.active = pstr "off") →
        memS t.1 (taskKeys (managePass channels ts pr fresh).1) = false
        ∧ memS t.1 (managePass channels ts pr fresh).2.1 = false)
    ∧ (∀ t ∈ ts, (∃ ch ∈ channels, ch.id = t.1 ∧ ch.active = pstr "on") →
        t ∈ (managePass channels ts pr fresh).1)
    ∧ (taskKeys (managePass channels ts pr fresh).1).Nodup := by
  refine ⟨?_, ?_, ?_, managePass_nodup channels ts pr fresh hnodupT⟩
  · intro ch hch hid hon hnr
    exact managePass_starts channels ts pr fresh hnodupC ch hch hid hon hnr
  · intro t hts hgone
    rcases hgone with habs | ⟨ch, hch, hcid, hoff⟩
    · exact managePass_cancels_absent channels ts pr fresh t hts habs
    · exact managePass_cancels_inactive channels ts pr fresh hnodupC hne
        t hts ch hch hcid hoff
  · intro t hts hkeep
    obtain ⟨ch, hch, hcid, hon⟩ := hkeep
    exact managePass_keeps channels ts pr fresh hnodupC hne t hts ch hch hcid hon

/-- Witness for manage_pass_reconciliation: a first pass over desired
channels A and B, both active, with nothing running, starts a task
for A (and B symmetrically). -/
theorem manage_pass_reconciliation_witness :
    (([⟨pstr "A", pstr "on"⟩, ⟨pstr "B", pstr "on"⟩] : List ChanCfg).map (·.id)).Nodup
    ∧ ∃ tok, 0 ≤ tok ∧ (pstr "A", tok)
        ∈ (managePass [⟨pstr "A", pstr "on"⟩, ⟨pstr "B", pstr "on"⟩] [] [] 0).1 :=
  ⟨by decide,
   (manage_pass_reconciliation [⟨pstr "A", pstr "on"⟩, ⟨pstr "B", pstr "on"⟩] [] [] 0
      (by decide) (by decide) (by decide) (by decide)).1
     ⟨pstr "A", pstr "on"⟩ (by decide) (by decide) (by decide) (by decide)⟩

end ChzzkRekoda


